import Mathlib

/-!
Shallow embedding of the finite-field and elliptic-curve-point core of the
repository (files src/field_element.rs and src/point.rs).

Conventions of the embedding:
- Rust i32 values are modeled as unbounded Int; the places where the claims
  make 32-bit overflow relevant (the multiply-then-mod steps of Mul and of the
  mod_pow loop inside pow) are additionally modeled bit-faithfully by the
  wrap32 variants below, and the agreement of the two views is proved for the
  moduli whose residue products fit in an i32.
- Rust rem_euclid is Int.emod (both return the least nonnegative residue for a
  nonzero divisor); the Rust truncating percent operator is Int.tmod; the Rust
  arithmetic right shift by one is Int.fdiv by 2.
- Rust panics (out-of-range construction, mismatched primes, calling num on the
  infinity coordinate, a point failing the curve check, remainder by zero) are
  modeled by Option: a function returns none exactly when the Rust code panics.
- The while loop of mod_pow is expressed with an explicit fuel argument set to
  the (nonnegative) exponent itself; the loop halves the exponent each step, so
  this fuel is always sufficient (the correctness lemma below proves the loop
  runs to completion for any fuel with exp < 2 ^ fuel).
-/

/-- Residue representation from field_element.rs: struct FieldElement with
fields num and prime (i32 in the source, modeled as Int). -/
structure FieldElement where
  num : Int
  prime : Int
deriving DecidableEq

/-- The representation invariant stated by the spec: the stored value is the
least nonnegative residue. -/
def FieldElement.valid (x : FieldElement) : Prop :=
  0 ≤ x.num ∧ x.num < x.prime

instance (x : FieldElement) : Decidable x.valid := by
  unfold FieldElement.valid; infer_instance

/-- FieldElement::new: panics (none) unless 0 <= num < prime. -/
def FieldElement.new (num prime : Int) : Option FieldElement :=
  if num ≥ prime ∨ num < 0 then none
  else some ⟨num, prime⟩

/-- Loop body of the mod_pow closure in FieldElement::pow, with fuel.
State: base, exp, result; while exp > 0 it conditionally multiplies the
accumulator, shifts the exponent right by one and squares the base. -/
def mod_pow_go (modulus : Int) : Nat → Int → Int → Int → Int
  | 0, _, _, result => result
  | fuel + 1, base, exp, result =>
    if 0 < exp then
      mod_pow_go modulus fuel ((base * base).tmod modulus) (exp.fdiv 2)
        (if exp.tmod 2 = 1 then (result * base).tmod modulus else result)
    else result

/-- The mod_pow closure from FieldElement::pow: binary square-and-multiply
exponentiation, with the special case for modulus 1. -/
def mod_pow (base exp modulus : Int) : Int :=
  if modulus = 1 then 0
  else mod_pow_go modulus exp.toNat (base.tmod modulus) exp 1

/-- FieldElement::pow. The exponent is first reduced with
rem_euclid(prime - 1); prime = 1 makes that a remainder by zero (a panic,
hence none), and prime = 0 makes the percent operations inside mod_pow
remainders by zero (also a panic, hence none). -/
def FieldElement.pow (x : FieldElement) (num : Int) : Option FieldElement :=
  if x.prime - 1 = 0 ∨ x.prime = 0 then none
  else
    FieldElement.new (mod_pow x.num (num % (x.prime - 1)) x.prime % x.prime) x.prime

/-- Add for FieldElement: requires equal primes, reduces with rem_euclid. -/
def FieldElement.add (x y : FieldElement) : Option FieldElement :=
  if x.prime ≠ y.prime then none
  else FieldElement.new ((x.num + y.num) % x.prime) x.prime

/-- Sub for FieldElement: negates the right operand into range and adds. -/
def FieldElement.sub (x y : FieldElement) : Option FieldElement :=
  if x.prime ≠ y.prime then none
  else
    (FieldElement.new (-1 * y.num % x.prime) x.prime).bind fun new_other =>
      FieldElement.add x new_other

/-- Mul for FieldElement: multiply then rem_euclid (ideal-integer view of the
i32 product; see mul_wrap32 for the bit-faithful 32-bit view). -/
def FieldElement.mul (x y : FieldElement) : Option FieldElement :=
  if x.prime ≠ y.prime then none
  else FieldElement.new (x.num * y.num % x.prime) x.prime

/-- Div for FieldElement: multiplication by the Fermat inverse,
other.pow(self.prime - 2) * self. -/
def FieldElement.div (x y : FieldElement) : Option FieldElement :=
  if x.prime ≠ y.prime then none
  else (FieldElement.pow y (x.prime - 2)).bind fun inv => FieldElement.mul inv x

/-- Two-complement wrap-around of a 32-bit signed integer: the value an i32
multiplication actually stores in release mode when the ideal product leaves
the representable range. -/
def wrap32 (n : Int) : Int :=
  (n + 2 ^ 31) % 2 ^ 32 - 2 ^ 31

/-- Mul for FieldElement with the product computed at the real i32 width:
self.num * other.num wraps modulo 2 ^ 32 before rem_euclid is applied. In
debug builds the same overflow is an immediate panic instead of a wrap; either
way the mathematical product is lost. -/
def FieldElement.mul_wrap32 (x y : FieldElement) : Option FieldElement :=
  if x.prime ≠ y.prime then none
  else FieldElement.new (wrap32 (x.num * y.num) % x.prime) x.prime

/-- Loop body of the mod_pow closure with its two multiplies carried out at
the real i32 width: result * base and base * base wrap modulo 2 ^ 32
(release mode; a debug build panics at the same products) before the
truncating remainder is taken. -/
def mod_pow_go_wrap32 (modulus : Int) : Nat → Int → Int → Int → Int
  | 0, _, _, result => result
  | fuel + 1, base, exp, result =>
    if 0 < exp then
      mod_pow_go_wrap32 modulus fuel ((wrap32 (base * base)).tmod modulus) (exp.fdiv 2)
        (if exp.tmod 2 = 1 then (wrap32 (result * base)).tmod modulus else result)
    else result

/-- The mod_pow closure with i32-width multiplies. -/
def mod_pow_wrap32 (base exp modulus : Int) : Int :=
  if modulus = 1 then 0
  else mod_pow_go_wrap32 modulus exp.toNat (base.tmod modulus) exp 1

/-- FieldElement::pow with the multiply-then-mod steps of the
square-and-multiply loop at the real i32 width; see pow for the
ideal-integer view. The two agree whenever every loop product stays within
the i32 range. -/
def FieldElement.pow_wrap32 (x : FieldElement) (num : Int) : Option FieldElement :=
  if x.prime - 1 = 0 ∨ x.prime = 0 then none
  else
    FieldElement.new (mod_pow_wrap32 x.num (num % (x.prime - 1)) x.prime % x.prime) x.prime

/-- Coordinate from point.rs: a finite field element or the infinity marker. -/
inductive Coordinate where
  | Num (x : FieldElement)
  | Inf
deriving DecidableEq

/-- Coordinate::num: panics (none) on the infinity coordinate. -/
def Coordinate.num : Coordinate → Option FieldElement
  | .Num x => some x
  | .Inf => none

/-- Point from point.rs: curve parameters a, b and the two coordinates. -/
structure Point where
  a : FieldElement
  b : FieldElement
  x : Coordinate
  y : Coordinate
deriving DecidableEq

/-- Point::is_on_curve: both coordinates infinite is the identity and is on
the curve; two finite coordinates are checked against
y.pow(2) == x.pow(3) + a * x + b; a mixed pair is never on the curve. The
field operations inside the check can themselves panic (none). -/
def Point.is_on_curve (self : Point) : Option Bool :=
  match self.x, self.y with
  | .Inf, .Inf => some true
  | .Num x, .Num y =>
    (y.pow 2).bind fun lhs =>
    (x.pow 3).bind fun xcube =>
    (self.a.mul x).bind fun ax =>
    (xcube.add ax).bind fun t =>
    (t.add self.b).bind fun rhs =>
    some (decide (lhs = rhs))
  | _, _ => some false

/-- Point::new: builds the record and panics (none) unless is_on_curve. -/
def Point.new (x y : Coordinate) (a b : FieldElement) : Option Point :=
  (Point.is_on_curve ⟨a, b, x, y⟩).bind fun ok =>
    if ok then some ⟨a, b, x, y⟩ else none

/-- Chord branch of Add for Point (x1 differs from x2): the body of the first
if in the source, factored out with the values it reads. -/
def Point.chord (x1 y1 x2 y2 a b : FieldElement) : Option Point :=
  (y2.sub y1).bind fun d1 =>
  (x2.sub x1).bind fun d2 =>
  (d1.div d2).bind fun s =>
  (s.pow 2).bind fun s2 =>
  (s2.sub x1).bind fun t =>
  (t.sub x2).bind fun x3 =>
  (x1.sub x3).bind fun u =>
  (s.mul u).bind fun v =>
  (v.sub y1).bind fun y3 =>
  Point.new (.Num x3) (.Num y3) a b

/-- Tangent (doubling) branch of Add for Point: the body of the second if in
the source, factored out; p is x1.prime in the source. -/
def Point.tangent (x1 y1 a b : FieldElement) : Option Point :=
  (FieldElement.new 3 x1.prime).bind fun three =>
  (x1.pow 2).bind fun x1sq =>
  (three.mul x1sq).bind fun t1 =>
  (t1.add a).bind fun numer =>
  (FieldElement.new 2 x1.prime).bind fun two =>
  (two.mul y1).bind fun denom =>
  (numer.div denom).bind fun s =>
  (s.pow 2).bind fun s2 =>
  (FieldElement.new 2 x1.prime).bind fun two2 =>
  (two2.mul x1).bind fun tx =>
  (s2.sub tx).bind fun x3 =>
  (x1.sub x3).bind fun u =>
  (s.mul u).bind fun v =>
  (v.sub y1).bind fun y3 =>
  Point.new (.Num x3) (.Num y3) a b

/-- Add for Point, the full group law from point.rs. The match mirrors the
source: either infinity operand returns the other operand unchanged; two
finite x coordinates select the chord case when x1 differs from x2 as a
struct, the tangent case when y1 == y2 and y1 is not the zero element
(FieldElement::new(0, p) is only evaluated after y1 == y2 holds, as the Rust
short-circuit does), and the vertical case otherwise. -/
def Point.add (self other : Point) : Option Point :=
  match self.x, other.x with
  | .Inf, _ => some other
  | _, .Inf => some self
  | .Num _, .Num _ =>
    (self.x.num).bind fun x1 =>
    (self.y.num).bind fun y1 =>
    (other.x.num).bind fun x2 =>
    (other.y.num).bind fun y2 =>
    if x1 ≠ x2 then
      Point.chord x1 y1 x2 y2 self.a self.b
    else if y1 = y2 then
      (FieldElement.new 0 x1.prime).bind fun zero =>
      if y1 ≠ zero then
        Point.tangent x1 y1 self.a self.b
      else Point.new .Inf .Inf self.a self.b
    else Point.new .Inf .Inf self.a self.b

/-- Loop of the scalar multiplication impl Mul of Point for i64:
result = result + other, repeated a fixed number of times. -/
def Point.scalar_mul_go (other : Point) : Nat → Point → Option Point
  | 0, result => some result
  | n + 1, result => (Point.add result other).bind fun r => Point.scalar_mul_go other n r

/-- Scalar multiplication k * p from point.rs: start from the infinity point
of the curve of p and add p once per iteration of 0..k (so k.toNat times; a
nonpositive k gives an empty range exactly as the Rust loop does). -/
def Point.scalar_mul (k : Int) (other : Point) : Option Point :=
  (Point.new .Inf .Inf other.a other.b).bind fun init =>
    Point.scalar_mul_go other k.toNat init

/-- Instrumented copy of the scalar multiplication loop that also counts how
many Point.add operations are performed. -/
def Point.scalar_mul_count_go (other : Point) : Nat → Point → Nat → Option (Point × Nat)
  | 0, result, c => some (result, c)
  | n + 1, result, c =>
    (Point.add result other).bind fun r => Point.scalar_mul_count_go other n r (c + 1)

/-- Instrumented scalar multiplication: same result as Point.scalar_mul,
paired with the number of group additions executed. -/
def Point.scalar_mul_count (k : Int) (other : Point) : Option (Point × Nat) :=
  (Point.new .Inf .Inf other.a other.b).bind fun init =>
    Point.scalar_mul_count_go other k.toNat init 0

/-! ### Helper lemmas about the embedded operations -/

lemma FieldElement.new_eq_some {v m : Int} (h0 : 0 ≤ v) (h1 : v < m) :
    FieldElement.new v m = some ⟨v, m⟩ := by
  unfold FieldElement.new
  rw [if_neg (by omega)]

lemma mod_pow_go_eq (m : Int) (hm : 1 < m) :
    ∀ (fuel : Nat) (e : Int), 0 ≤ e → e < 2 ^ fuel →
    ∀ b r : Int, 0 ≤ b → 0 ≤ r → r < m →
    mod_pow_go m fuel b e r = r * b ^ e.toNat % m := by
  intro fuel
  induction fuel with
  | zero =>
    intro e he hlt b r hb hr hrm
    have h20 : (2 : Int) ^ (0 : Nat) = 1 := pow_zero 2
    have he0 : e = 0 := by omega
    subst he0
    simp only [mod_pow_go, Int.toNat_zero, pow_zero, mul_one]
    exact (Int.emod_eq_of_lt hr hrm).symm
  | succ fuel ih =>
    intro e he hlt b r hb hr hrm
    simp only [mod_pow_go]
    by_cases hpos : 0 < e
    · rw [if_pos hpos]
      have hm0 : m ≠ 0 := by omega
      have hmpos : 0 < m := by omega
      have hfd : e.fdiv 2 = e / 2 := Int.fdiv_eq_ediv e (by norm_num)
      have htm : e.tmod 2 = e % 2 := Int.tmod_eq_emod he (by norm_num)
      have h2p : (2 : Int) ^ (fuel + 1) = 2 ^ fuel * 2 := by ring
      have hlt2 : e / 2 < 2 ^ fuel := by
        rw [Int.ediv_lt_iff_lt_mul (by norm_num)]
        omega
      have he2 : 0 ≤ e / 2 := Int.ediv_nonneg he (by norm_num)
      have hbb : 0 ≤ b * b := mul_nonneg hb hb
      have hbb2 : (b * b).tmod m = b * b % m := Int.tmod_eq_emod hbb (by omega)
      have hk : e.toNat = 2 * (e / 2).toNat + (e % 2).toNat := by omega
      rw [hfd, hbb2]
      by_cases hodd : e.tmod 2 = 1
      · rw [if_pos hodd]
        have hrb : 0 ≤ r * b := mul_nonneg hr hb
        have hrb2 : (r * b).tmod m = r * b % m := Int.tmod_eq_emod hrb (by omega)
        rw [hrb2]
        rw [ih (e / 2) he2 hlt2 (b * b % m) (r * b % m)
          (Int.emod_nonneg _ hm0) (Int.emod_nonneg _ hm0) (Int.emod_lt_of_pos _ hmpos)]
        have hc1 : (e % 2).toNat = 1 := by omega
        have hmod1 : r * b % m ≡ r * b [ZMOD m] := Int.emod_emod (r * b) m
        have hmod2 : b * b % m ≡ b * b [ZMOD m] := Int.emod_emod (b * b) m
        have hcong : (r * b % m) * (b * b % m) ^ (e / 2).toNat ≡
            (r * b) * (b * b) ^ (e / 2).toNat [ZMOD m] :=
          hmod1.mul (hmod2.pow _)
        have hpowid : (r * b) * (b * b) ^ (e / 2).toNat = r * b ^ e.toNat := by
          rw [hk, hc1, ← sq, ← pow_mul, pow_add, pow_one]
          ring
        calc (r * b % m) * (b * b % m) ^ (e / 2).toNat % m
            = (r * b) * (b * b) ^ (e / 2).toNat % m := hcong
          _ = r * b ^ e.toNat % m := by rw [hpowid]
      · rw [if_neg hodd]
        rw [ih (e / 2) he2 hlt2 (b * b % m) r
          (Int.emod_nonneg _ hm0) hr hrm]
        have hc0 : (e % 2).toNat = 0 := by omega
        have hmod2 : b * b % m ≡ b * b [ZMOD m] := Int.emod_emod (b * b) m
        have hcong : r * (b * b % m) ^ (e / 2).toNat ≡
            r * (b * b) ^ (e / 2).toNat [ZMOD m] :=
          (Int.ModEq.refl r).mul (hmod2.pow _)
        have hpowid : r * (b * b) ^ (e / 2).toNat = r * b ^ e.toNat := by
          rw [hk, hc0, ← sq, ← pow_mul]
          ring
        calc r * (b * b % m) ^ (e / 2).toNat % m
            = r * (b * b) ^ (e / 2).toNat % m := hcong
          _ = r * b ^ e.toNat % m := by rw [hpowid]
    · rw [if_neg hpos]
      have he0 : e = 0 := by omega
      subst he0
      simp only [Int.toNat_zero, pow_zero, mul_one]
      exact (Int.emod_eq_of_lt hr hrm).symm

lemma mod_pow_eq {base e m : Int} (hm : 1 < m) (hb : 0 ≤ base) (he : 0 ≤ e) :
    mod_pow base e m = base ^ e.toNat % m := by
  unfold mod_pow
  rw [if_neg (by omega)]
  have hm0 : m ≠ 0 := by omega
  have h1 : base.tmod m = base % m := Int.tmod_eq_emod hb (by omega)
  have hfuel : e < 2 ^ e.toNat := by
    have h2 := Nat.lt_two_pow e.toNat
    have h3 : (e.toNat : Int) = e := Int.toNat_of_nonneg he
    calc e = (e.toNat : Int) := h3.symm
      _ < ((2 ^ e.toNat : Nat) : Int) := by exact_mod_cast h2
      _ = 2 ^ e.toNat := by push_cast; ring
  rw [h1, mod_pow_go_eq m hm e.toNat e he hfuel (base % m) 1
    (Int.emod_nonneg _ hm0) (by norm_num) (by omega), one_mul]
  have h4 : base % m ≡ base [ZMOD m] := Int.emod_emod base m
  exact h4.pow e.toNat

lemma FieldElement.pow_eq (x : FieldElement) (e : Int) (hb : 0 ≤ x.num) (hp : 1 < x.prime) :
    x.pow e = some ⟨x.num ^ (e % (x.prime - 1)).toNat % x.prime, x.prime⟩ := by
  unfold FieldElement.pow
  rw [if_neg (by omega)]
  have hexp : 0 ≤ e % (x.prime - 1) := Int.emod_nonneg _ (by omega)
  rw [mod_pow_eq hp hb hexp, Int.emod_emod]
  exact FieldElement.new_eq_some (Int.emod_nonneg _ (by omega)) (Int.emod_lt_of_pos _ (by omega))

lemma wrap32_eq_self {n : Int} (h0 : -(2 ^ 31) ≤ n) (h1 : n < 2 ^ 31) : wrap32 n = n := by
  have e31 : (2 : Int) ^ 31 = 2147483648 := by norm_num
  have e32 : (2 : Int) ^ 32 = 4294967296 := by norm_num
  unfold wrap32
  rw [Int.emod_eq_of_lt (by omega) (by omega)]
  ring

lemma mod_pow_go_wrap32_eq (m : Int) (hm : 1 < m) (h46 : m ≤ 46341) :
    ∀ (fuel : Nat) (b e r : Int), 0 ≤ b → b < m → 0 ≤ r → r < m →
    mod_pow_go_wrap32 m fuel b e r = mod_pow_go m fuel b e r := by
  intro fuel
  induction fuel with
  | zero => intro b e r _ _ _ _; rfl
  | succ fuel ih =>
    intro b e r hb0 hb1 hr0 hr1
    simp only [mod_pow_go_wrap32, mod_pow_go]
    by_cases hpos : 0 < e
    · rw [if_pos hpos, if_pos hpos]
      have e31 : (2 : Int) ^ 31 = 2147483648 := by norm_num
      have hbb : b * b ≤ 46340 * 46340 :=
        mul_le_mul (by omega) (by omega) hb0 (by norm_num)
      have hrb : r * b ≤ 46340 * 46340 :=
        mul_le_mul (by omega) (by omega) hb0 (by norm_num)
      have hbb0 : 0 ≤ b * b := mul_nonneg hb0 hb0
      have hrb0 : 0 ≤ r * b := mul_nonneg hr0 hb0
      have hw1 : wrap32 (b * b) = b * b :=
        wrap32_eq_self (by linarith) (by linarith)
      have hw2 : wrap32 (r * b) = r * b :=
        wrap32_eq_self (by linarith) (by linarith)
      rw [hw1, hw2]
      have htm1 : (b * b).tmod m = b * b % m := Int.tmod_eq_emod hbb0 (by omega)
      have htm2 : (r * b).tmod m = r * b % m := Int.tmod_eq_emod hrb0 (by omega)
      apply ih
      · rw [htm1]; exact Int.emod_nonneg _ (by omega)
      · rw [htm1]; exact Int.emod_lt_of_pos _ (by omega)
      · split
        · rw [htm2]; exact Int.emod_nonneg _ (by omega)
        · exact hr0
      · split
        · rw [htm2]; exact Int.emod_lt_of_pos _ (by omega)
        · exact hr1
    · rw [if_neg hpos, if_neg hpos]

lemma mod_pow_wrap32_eq {base e m : Int} (hm : 1 < m) (h46 : m ≤ 46341) (hb : 0 ≤ base) :
    mod_pow_wrap32 base e m = mod_pow base e m := by
  unfold mod_pow_wrap32 mod_pow
  rw [if_neg (by omega), if_neg (by omega)]
  have htm : base.tmod m = base % m := Int.tmod_eq_emod hb (by omega)
  rw [htm]
  exact mod_pow_go_wrap32_eq m hm h46 e.toNat (base % m) e 1
    (Int.emod_nonneg _ (by omega)) (Int.emod_lt_of_pos _ (by omega)) (by norm_num) (by omega)

lemma FieldElement.pow_wrap32_eq (x : FieldElement) (e : Int) (hx : 0 ≤ x.num)
    (hp : 1 < x.prime) (h46 : x.prime ≤ 46341) :
    x.pow_wrap32 e = x.pow e := by
  unfold FieldElement.pow_wrap32 FieldElement.pow
  rw [if_neg (by omega), if_neg (by omega)]
  rw [mod_pow_wrap32_eq hp h46 hx]

lemma FieldElement.add_eq (x y : FieldElement) (hpr : x.prime = y.prime) (hpos : 0 < x.prime) :
    x.add y = some ⟨(x.num + y.num) % x.prime, x.prime⟩ := by
  unfold FieldElement.add
  rw [if_neg (by omega)]
  exact FieldElement.new_eq_some (Int.emod_nonneg _ (by omega)) (Int.emod_lt_of_pos _ hpos)

lemma FieldElement.sub_eq (x y : FieldElement) (hpr : x.prime = y.prime) (hpos : 0 < x.prime) :
    x.sub y = some ⟨(x.num + -1 * y.num % x.prime) % x.prime, x.prime⟩ := by
  unfold FieldElement.sub
  rw [if_neg (by omega)]
  rw [FieldElement.new_eq_some (Int.emod_nonneg _ (by omega)) (Int.emod_lt_of_pos _ hpos)]
  rw [Option.some_bind]
  exact FieldElement.add_eq x ⟨-1 * y.num % x.prime, x.prime⟩ rfl hpos

lemma FieldElement.mul_eq (x y : FieldElement) (hpr : x.prime = y.prime) (hpos : 0 < x.prime) :
    x.mul y = some ⟨x.num * y.num % x.prime, x.prime⟩ := by
  unfold FieldElement.mul
  rw [if_neg (by omega)]
  exact FieldElement.new_eq_some (Int.emod_nonneg _ (by omega)) (Int.emod_lt_of_pos _ hpos)

lemma FieldElement.div_eq (x y : FieldElement) (hpr : x.prime = y.prime) (hp : 1 < x.prime)
    (hy : 0 ≤ y.num) :
    ∃ z, x.div y = some z ∧ z.valid ∧ z.prime = x.prime := by
  unfold FieldElement.div
  rw [if_neg (by omega)]
  rw [FieldElement.pow_eq y (x.prime - 2) hy (by omega)]
  rw [Option.some_bind]
  rw [FieldElement.mul_eq ⟨y.num ^ ((x.prime - 2) % (y.prime - 1)).toNat % y.prime,
    y.prime⟩ x (by simpa using hpr.symm) (by simp; omega)]
  refine ⟨_, rfl, ⟨?_, ?_⟩, ?_⟩
  · exact Int.emod_nonneg _ (by simp; omega)
  · simpa using Int.emod_lt_of_pos _ (show (0:Int) < y.prime by omega)
  · simpa using hpr.symm

lemma Point.new_inf_inf (a b : FieldElement) :
    Point.new .Inf .Inf a b = some ⟨a, b, .Inf, .Inf⟩ := rfl

lemma Point.scalar_mul_go_append (p : Point) (a b : Nat) (r : Point) :
    Point.scalar_mul_go p (a + b) r =
      (Point.scalar_mul_go p a r).bind fun q => Point.scalar_mul_go p b q := by
  induction a generalizing r with
  | zero => simp [Point.scalar_mul_go]
  | succ n ih =>
    rw [show n + 1 + b = (n + b) + 1 from by omega]
    simp only [Point.scalar_mul_go]
    cases h : Point.add r p with
    | none => simp
    | some r2 => simp [ih r2]

lemma Point.scalar_mul_go_succ_right (p : Point) (n : Nat) (r : Point) :
    Point.scalar_mul_go p (n + 1) r =
      (Point.scalar_mul_go p n r).bind fun q => Point.add q p := by
  induction n generalizing r with
  | zero =>
    show (Point.add r p).bind (fun r2 => Point.scalar_mul_go p 0 r2) =
      (some r).bind fun q => Point.add q p
    rw [Option.some_bind]
    exact Option.bind_some _
  | succ n ih =>
    show (Point.add r p).bind (fun r2 => Point.scalar_mul_go p (n + 1) r2) =
      ((Point.add r p).bind fun r2 => Point.scalar_mul_go p n r2).bind fun q => Point.add q p
    cases h : Point.add r p with
    | none => simp
    | some r2 =>
      rw [Option.some_bind, Option.some_bind]
      exact ih r2

lemma Point.scalar_mul_count_go_eq (p : Point) :
    ∀ (n : Nat) (r : Point) (c : Nat) (q : Point) (cc : Nat),
      Point.scalar_mul_count_go p n r c = some (q, cc) →
      cc = c + n ∧ Point.scalar_mul_go p n r = some q := by
  intro n
  induction n with
  | zero =>
    intro r c q cc h
    simp only [Point.scalar_mul_count_go, Option.some.injEq, Prod.mk.injEq] at h
    obtain ⟨hq, hc⟩ := h
    subst hq
    subst hc
    exact ⟨by omega, rfl⟩
  | succ n ih =>
    intro r c q cc h
    simp only [Point.scalar_mul_count_go] at h
    obtain ⟨r2, h2, h3⟩ := Option.bind_eq_some.mp h
    obtain ⟨hcc, hgo⟩ := ih r2 (c + 1) q cc h3
    refine ⟨by omega, ?_⟩
    show (Point.add r p).bind (fun r2 => Point.scalar_mul_go p n r2) = some q
    rw [h2, Option.some_bind]
    exact hgo

/-! ### Claim theorems -/

/-- C1 counterexample: the claim computes the chord slope as
s = (y2 - y1) / (x1 - x2). At p1 = (170, 142), p2 = (60, 139) over modulus
223 that slope is 2, giving x3 = 220 and y3 = 204 by the claimed formulas,
while Point.add returns (220, 181): the claimed y3 disagrees with the code
(the code divides by x2 - x1, not x1 - x2). -/
theorem chord_slope_denominator_counterexample :
    (((⟨139, 223⟩ : FieldElement).sub ⟨142, 223⟩).bind fun d1 =>
      ((⟨170, 223⟩ : FieldElement).sub ⟨60, 223⟩).bind fun d2 => d1.div d2) = some ⟨2, 223⟩ ∧
    (((⟨2, 223⟩ : FieldElement).pow 2).bind fun s2 =>
      (s2.sub ⟨170, 223⟩).bind fun t => t.sub ⟨60, 223⟩) = some ⟨220, 223⟩ ∧
    (((⟨170, 223⟩ : FieldElement).sub ⟨220, 223⟩).bind fun u =>
      ((⟨2, 223⟩ : FieldElement).mul u).bind fun v => v.sub ⟨142, 223⟩) = some ⟨204, 223⟩ ∧
    Point.add ⟨⟨0, 223⟩, ⟨7, 223⟩, .Num ⟨170, 223⟩, .Num ⟨142, 223⟩⟩
        ⟨⟨0, 223⟩, ⟨7, 223⟩, .Num ⟨60, 223⟩, .Num ⟨139, 223⟩⟩ =
      some ⟨⟨0, 223⟩, ⟨7, 223⟩, .Num ⟨220, 223⟩, .Num ⟨181, 223⟩⟩ ∧
    (⟨204, 223⟩ : FieldElement) ≠ ⟨181, 223⟩ := by decide

/-- C1 (amended): for two finite points with distinct x coordinates on the
same curve, Point.add returns the point built by the validating factory from
x3 and y3, where the slope is s = (y2 - y1) / (x2 - x1) computed with the
FieldElement division, x3 = s ^ 2 - x1 - x2 and y3 = s * (x1 - x3) - y1. -/
theorem add_chord_case (x1 y1 x2 y2 a b s x3 y3 : FieldElement)
    (hx : x1.num ≠ x2.num)
    (hs : ((y2.sub y1).bind fun d1 => (x2.sub x1).bind fun d2 => d1.div d2) = some s)
    (hx3 : ((s.pow 2).bind fun s2 => (s2.sub x1).bind fun t => t.sub x2) = some x3)
    (hy3 : ((x1.sub x3).bind fun u => (s.mul u).bind fun v => v.sub y1) = some y3) :
    Point.add ⟨a, b, .Num x1, .Num y1⟩ ⟨a, b, .Num x2, .Num y2⟩ =
      Point.new (.Num x3) (.Num y3) a b := by
  obtain ⟨d1, hd1, hrest⟩ := Option.bind_eq_some.mp hs
  obtain ⟨d2, hd2, hdiv⟩ := Option.bind_eq_some.mp hrest
  obtain ⟨s2, hs2, hrest2⟩ := Option.bind_eq_some.mp hx3
  obtain ⟨t, ht, hx3v⟩ := Option.bind_eq_some.mp hrest2
  obtain ⟨u, hu, hrest3⟩ := Option.bind_eq_some.mp hy3
  obtain ⟨v, hv, hy3v⟩ := Option.bind_eq_some.mp hrest3
  have hne : x1 ≠ x2 := fun h => hx (congrArg FieldElement.num h)
  show (if x1 ≠ x2 then Point.chord x1 y1 x2 y2 a b
    else if y1 = y2 then
      (FieldElement.new 0 x1.prime).bind fun zero =>
        if y1 ≠ zero then Point.tangent x1 y1 a b
        else Point.new .Inf .Inf a b
    else Point.new .Inf .Inf a b) = Point.new (.Num x3) (.Num y3) a b
  rw [if_pos hne]
  unfold Point.chord
  rw [hd1, Option.some_bind, hd2, Option.some_bind, hdiv, Option.some_bind,
    hs2, Option.some_bind, ht, Option.some_bind, hx3v, Option.some_bind,
    hu, Option.some_bind, hv, Option.some_bind, hy3v, Option.some_bind]

/-- C1 witness: the chord case at the worked example, p1 = (170, 142) and
p2 = (60, 139) over modulus 223 with a = 0, b = 7; the slope is 221 and the
sum is (220, 181). -/
theorem add_chord_case_witness :
    Point.add ⟨⟨0, 223⟩, ⟨7, 223⟩, .Num ⟨170, 223⟩, .Num ⟨142, 223⟩⟩
        ⟨⟨0, 223⟩, ⟨7, 223⟩, .Num ⟨60, 223⟩, .Num ⟨139, 223⟩⟩ =
      Point.new (.Num ⟨220, 223⟩) (.Num ⟨181, 223⟩) ⟨0, 223⟩ ⟨7, 223⟩ ∧
    Point.new (.Num ⟨220, 223⟩) (.Num ⟨181, 223⟩) ⟨0, 223⟩ ⟨7, 223⟩ =
      some ⟨⟨0, 223⟩, ⟨7, 223⟩, .Num ⟨220, 223⟩, .Num ⟨181, 223⟩⟩ :=
  ⟨add_chord_case ⟨170, 223⟩ ⟨142, 223⟩ ⟨60, 223⟩ ⟨139, 223⟩ ⟨0, 223⟩ ⟨7, 223⟩
    ⟨221, 223⟩ ⟨220, 223⟩ ⟨181, 223⟩ (by decide) (by decide) (by decide) (by decide),
   by decide⟩

/-- C2: doubling a finite point with nonzero y coordinate takes the tangent
branch: Point.add of the point with itself returns the point built by the
validating factory from x3 and y3, where s = (3 * x1 ^ 2 + a) / (2 * y1),
x3 = s ^ 2 - 2 * x1 and y3 = s * (x1 - x3) - y1, all with FieldElement
operations. -/
theorem add_tangent_case (x1 y1 a b s x3 y3 : FieldElement)
    (hpos : 0 < x1.prime) (hy0 : y1.num ≠ 0)
    (hs : ((FieldElement.new 3 x1.prime).bind fun three =>
      (x1.pow 2).bind fun x1sq =>
      (three.mul x1sq).bind fun t1 =>
      (t1.add a).bind fun numer =>
      (FieldElement.new 2 x1.prime).bind fun two =>
      (two.mul y1).bind fun denom =>
      numer.div denom) = some s)
    (hx3 : ((s.pow 2).bind fun s2 =>
      (FieldElement.new 2 x1.prime).bind fun two2 =>
      (two2.mul x1).bind fun tx => s2.sub tx) = some x3)
    (hy3 : ((x1.sub x3).bind fun u => (s.mul u).bind fun v => v.sub y1) = some y3) :
    Point.add ⟨a, b, .Num x1, .Num y1⟩ ⟨a, b, .Num x1, .Num y1⟩ =
      Point.new (.Num x3) (.Num y3) a b := by
  obtain ⟨three, h3, hr1⟩ := Option.bind_eq_some.mp hs
  obtain ⟨x1sq, hsq, hr2⟩ := Option.bind_eq_some.mp hr1
  obtain ⟨t1, ht1, hr3⟩ := Option.bind_eq_some.mp hr2
  obtain ⟨numer, hnum, hr4⟩ := Option.bind_eq_some.mp hr3
  obtain ⟨two, h2, hr5⟩ := Option.bind_eq_some.mp hr4
  obtain ⟨denom, hden, hdiv⟩ := Option.bind_eq_some.mp hr5
  obtain ⟨s2, hs2, hr6⟩ := Option.bind_eq_some.mp hx3
  obtain ⟨two2, h22, hr7⟩ := Option.bind_eq_some.mp hr6
  obtain ⟨tx, htx, hx3v⟩ := Option.bind_eq_some.mp hr7
  obtain ⟨u, hu, hr8⟩ := Option.bind_eq_some.mp hy3
  obtain ⟨v, hv, hy3v⟩ := Option.bind_eq_some.mp hr8
  show (if x1 ≠ x1 then Point.chord x1 y1 x1 y1 a b
    else if y1 = y1 then
      (FieldElement.new 0 x1.prime).bind fun zero =>
        if y1 ≠ zero then Point.tangent x1 y1 a b
        else Point.new .Inf .Inf a b
    else Point.new .Inf .Inf a b) = Point.new (.Num x3) (.Num y3) a b
  rw [if_neg (fun h => h rfl), if_pos rfl,
    FieldElement.new_eq_some le_rfl hpos, Option.some_bind,
    if_pos (fun h => hy0 (congrArg FieldElement.num h))]
  unfold Point.tangent
  rw [h2] at h22
  obtain rfl : two = two2 := Option.some.inj h22
  simp only [h3, hsq, ht1, hnum, h2, hden, hdiv, hs2, htx, hx3v, hu, hv, hy3v,
    Option.some_bind]

/-- C2 witness: doubling the point (192, 105) over modulus 223 with a = 0,
b = 7; the tangent slope is 87 and the double is (49, 71). -/
theorem add_tangent_case_witness :
    Point.add ⟨⟨0, 223⟩, ⟨7, 223⟩, .Num ⟨192, 223⟩, .Num ⟨105, 223⟩⟩
        ⟨⟨0, 223⟩, ⟨7, 223⟩, .Num ⟨192, 223⟩, .Num ⟨105, 223⟩⟩ =
      Point.new (.Num ⟨49, 223⟩) (.Num ⟨71, 223⟩) ⟨0, 223⟩ ⟨7, 223⟩ ∧
    Point.new (.Num ⟨49, 223⟩) (.Num ⟨71, 223⟩) ⟨0, 223⟩ ⟨7, 223⟩ =
      some ⟨⟨0, 223⟩, ⟨7, 223⟩, .Num ⟨49, 223⟩, .Num ⟨71, 223⟩⟩ :=
  ⟨add_tangent_case ⟨192, 223⟩ ⟨105, 223⟩ ⟨0, 223⟩ ⟨7, 223⟩
    ⟨87, 223⟩ ⟨49, 223⟩ ⟨71, 223⟩ (by decide) (by decide) (by decide) (by decide) (by decide),
   by decide⟩

/-- C3: scalar multiplication is the k-fold repeated addition of the point
with itself: 0 * p is the infinity point of the curve of p, (k + 1) * p is
k * p plus p for every nonnegative k, and whenever n * p is the infinity
point so is (m * n) * p for every m (so every multiple of the order of p
gives infinity); in particular 7 * (15, 86) over modulus 223 with a = 0,
b = 7 is the point at infinity. -/
theorem scalar_mul_repeated_addition :
    (∀ p : Point,
      Point.scalar_mul 0 p = some ⟨p.a, p.b, .Inf, .Inf⟩ ∧
      (∀ k : Int, 0 ≤ k →
        Point.scalar_mul (k + 1) p = (Point.scalar_mul k p).bind fun q => Point.add q p) ∧
      (∀ n m : Nat,
        Point.scalar_mul (n : Int) p = some ⟨p.a, p.b, .Inf, .Inf⟩ →
        Point.scalar_mul ((m * n : Nat) : Int) p = some ⟨p.a, p.b, .Inf, .Inf⟩)) ∧
    Point.scalar_mul 7 ⟨⟨0, 223⟩, ⟨7, 223⟩, .Num ⟨15, 223⟩, .Num ⟨86, 223⟩⟩ =
      some ⟨⟨0, 223⟩, ⟨7, 223⟩, .Inf, .Inf⟩ := by
  constructor
  · intro p
    have hsm : ∀ j : Int,
        Point.scalar_mul j p = Point.scalar_mul_go p j.toNat ⟨p.a, p.b, .Inf, .Inf⟩ :=
      fun j => rfl
    refine ⟨rfl, ?_, ?_⟩
    · intro k hk
      rw [hsm, hsm, show (k + 1).toNat = k.toNat + 1 from by omega,
        Point.scalar_mul_go_succ_right]
    · intro n m h
      rw [hsm, Int.toNat_natCast] at h
      rw [hsm, Int.toNat_natCast]
      induction m with
      | zero => simp [Point.scalar_mul_go]
      | succ j ihm =>
        rw [show (j + 1) * n = j * n + n from by ring, Point.scalar_mul_go_append,
          ihm, Option.some_bind, h]
  · decide

/-- C3 witness: the order-multiple clause applied at the concrete point
(15, 86) of order 7 over modulus 223 with a = 0, b = 7: since 7 * p is the
infinity point, 2 * 7 = 14 additions also return to the infinity point. -/
theorem scalar_mul_repeated_addition_witness :
    Point.scalar_mul ((2 * 7 : Nat) : Int)
        ⟨⟨0, 223⟩, ⟨7, 223⟩, .Num ⟨15, 223⟩, .Num ⟨86, 223⟩⟩ =
      some ⟨⟨0, 223⟩, ⟨7, 223⟩, .Inf, .Inf⟩ :=
  (scalar_mul_repeated_addition.1 ⟨⟨0, 223⟩, ⟨7, 223⟩, .Num ⟨15, 223⟩, .Num ⟨86, 223⟩⟩).2.2
    7 2 (by decide)

/-- C4: the scalar multiplication loop is the naive k-iteration
repeated-addition method, not the binary double-and-add method: whenever it
returns a result for scalar k it has performed exactly k.toNat group
additions (one per unit of the scalar), not on the order of the bit length
of k. -/
theorem scalar_mul_count_linear (k : Int) (p q : Point) (c : Nat)
    (h : Point.scalar_mul_count k p = some (q, c)) :
    c = k.toNat ∧ Point.scalar_mul k p = some q := by
  unfold Point.scalar_mul_count at h
  rw [Point.new_inf_inf, Option.some_bind] at h
  obtain ⟨hc, hgo⟩ := Point.scalar_mul_count_go_eq p k.toNat _ 0 q c h
  refine ⟨by omega, ?_⟩
  show (Point.new .Inf .Inf p.a p.b).bind
    (fun init => Point.scalar_mul_go p k.toNat init) = some q
  rw [Point.new_inf_inf, Option.some_bind]
  exact hgo

/-- C4 witness: multiplying (15, 86) by 16 over modulus 223 with a = 0,
b = 7 performs 16 point additions (the binary method would need about 8),
and returns the same point as the uninstrumented loop. -/
theorem scalar_mul_count_linear_witness :
    (16 : Nat) = (16 : Int).toNat ∧
    Point.scalar_mul 16 ⟨⟨0, 223⟩, ⟨7, 223⟩, .Num ⟨15, 223⟩, .Num ⟨86, 223⟩⟩ =
      some ⟨⟨0, 223⟩, ⟨7, 223⟩, .Num ⟨139, 223⟩, .Num ⟨86, 223⟩⟩ :=
  scalar_mul_count_linear 16 ⟨⟨0, 223⟩, ⟨7, 223⟩, .Num ⟨15, 223⟩, .Num ⟨86, 223⟩⟩
    ⟨⟨0, 223⟩, ⟨7, 223⟩, .Num ⟨139, 223⟩, .Num ⟨86, 223⟩⟩ 16 (by decide)

/-- C10: for every nonpositive i64 scalar k the Rust range 0..k is empty, so
k * p performs no addition at all and returns the infinity point of the
curve of p; in particular a negative scalar neither fails nor computes a
group inverse. -/
theorem scalar_mul_nonpos_inf (k : Int) (p : Point) (hk : k ≤ 0) :
    Point.scalar_mul k p = some ⟨p.a, p.b, .Inf, .Inf⟩ := by
  show Point.scalar_mul_go p k.toNat ⟨p.a, p.b, .Inf, .Inf⟩ =
    some ⟨p.a, p.b, .Inf, .Inf⟩
  rw [Int.toNat_of_nonpos hk]
  rfl

/-- C10 witness: -5 times the point (15, 86) over modulus 223 with a = 0,
b = 7 is the infinity point of that curve. -/
theorem scalar_mul_nonpos_inf_witness :
    Point.scalar_mul (-5) ⟨⟨0, 223⟩, ⟨7, 223⟩, .Num ⟨15, 223⟩, .Num ⟨86, 223⟩⟩ =
      some ⟨⟨0, 223⟩, ⟨7, 223⟩, .Inf, .Inf⟩ :=
  scalar_mul_nonpos_inf (-5) ⟨⟨0, 223⟩, ⟨7, 223⟩, .Num ⟨15, 223⟩, .Num ⟨86, 223⟩⟩
    (by decide)

/-- C5: Point.add performs no curve-parameter check. The point (170, 142) is
valid on the curve a = 0, b = 7 over modulus 223, and the point (60, 139) is
valid on the different curve a = 1, b = 170 over the same modulus; adding
them succeeds anyway and silently returns (220, 181) tagged with the first
operand's curve parameters, instead of failing with an incompatible-curve
error. -/
theorem add_mismatched_curves_succeeds :
    Point.new (.Num ⟨170, 223⟩) (.Num ⟨142, 223⟩) ⟨0, 223⟩ ⟨7, 223⟩ =
      some ⟨⟨0, 223⟩, ⟨7, 223⟩, .Num ⟨170, 223⟩, .Num ⟨142, 223⟩⟩ ∧
    Point.new (.Num ⟨60, 223⟩) (.Num ⟨139, 223⟩) ⟨1, 223⟩ ⟨170, 223⟩ =
      some ⟨⟨1, 223⟩, ⟨170, 223⟩, .Num ⟨60, 223⟩, .Num ⟨139, 223⟩⟩ ∧
    (⟨0, 223⟩ : FieldElement) ≠ ⟨1, 223⟩ ∧
    (⟨7, 223⟩ : FieldElement) ≠ ⟨170, 223⟩ ∧
    Point.add ⟨⟨0, 223⟩, ⟨7, 223⟩, .Num ⟨170, 223⟩, .Num ⟨142, 223⟩⟩
        ⟨⟨1, 223⟩, ⟨170, 223⟩, .Num ⟨60, 223⟩, .Num ⟨139, 223⟩⟩ =
      some ⟨⟨0, 223⟩, ⟨7, 223⟩, .Num ⟨220, 223⟩, .Num ⟨181, 223⟩⟩ := by decide

/-- C6: the multiply-then-mod step of Mul is carried out in the same 32-bit
width as the operands, not in double width. For the i32 modulus 2147483647
and the valid residues 65536 and 65536 the ideal product 65536 * 65536
exceeds the i32 range; the wrapped product is 0, so release-mode Mul returns
0 (and a debug build panics), while the exact product modulo the modulus is
2, which the ideal-width Mul returns. -/
theorem mul_wrap32_not_exact :
    (⟨65536, 2147483647⟩ : FieldElement).valid ∧
    (2 : Int) ^ 31 - 1 < 65536 * 65536 ∧
    FieldElement.mul_wrap32 ⟨65536, 2147483647⟩ ⟨65536, 2147483647⟩ =
      some ⟨0, 2147483647⟩ ∧
    FieldElement.mul ⟨65536, 2147483647⟩ ⟨65536, 2147483647⟩ =
      some ⟨2, 2147483647⟩ ∧
    (65536 * 65536 : Int) % 2147483647 = 2 := by decide

/-- C7 counterexample: the claim quantifies over every field element, but
the multiply-then-mod steps of the pow loop run at i32 width. For the valid
residue 65536 in the field of the i32 modulus 2147483647 and exponent 2, the
loop squares 65536, the product 2 ^ 32 leaves the i32 range, and the
bit-faithful pow returns 0 (a debug build panics at that multiply), while
the claimed value 65536 ^ 2 mod 2147483647 is 2 (which only the ideal-width
pow returns). -/
theorem pow_i32_overflow_counterexample :
    (⟨65536, 2147483647⟩ : FieldElement).valid ∧
    (2 : Int) ^ 31 - 1 < 65536 * 65536 ∧
    FieldElement.pow_wrap32 ⟨65536, 2147483647⟩ 2 = some ⟨0, 2147483647⟩ ∧
    FieldElement.pow ⟨65536, 2147483647⟩ 2 = some ⟨2, 2147483647⟩ ∧
    (65536 : Int) ^ ((2 % (2147483647 - 1 : Int)).toNat) % 2147483647 = 2 ∧
    (0 : Int) ≠ 2 := by decide

/-- C7 (amended): for a field element with nonnegative stored value and
modulus in (1, 46341] — so that every product of the square-and-multiply
loop stays within the i32 range and the bit-faithful pow agrees with the
ideal-width one — pow reduces the (possibly negative) exponent modulo
modulus - 1 with rem_euclid, raises the value to that effective exponent
modulo the modulus, and returns the least nonnegative residue. -/
theorem pow_fermat_reduction_bounded (x : FieldElement) (e : Int)
    (hx : 0 ≤ x.num) (hp : 1 < x.prime) (h46 : x.prime ≤ 46341) :
    x.pow_wrap32 e = x.pow e ∧
    ∃ z, x.pow_wrap32 e = some z ∧
      z.num = x.num ^ (e % (x.prime - 1)).toNat % x.prime ∧
      0 ≤ z.num ∧ z.num < z.prime ∧ z.prime = x.prime := by
  have hagree := FieldElement.pow_wrap32_eq x e hx hp h46
  refine ⟨hagree, ?_⟩
  rw [hagree]
  refine ⟨_, FieldElement.pow_eq x e hx hp, rfl, ?_, ?_, rfl⟩
  · exact Int.emod_nonneg _ (by omega)
  · exact Int.emod_lt_of_pos _ (by omega)

/-- C7 witness: in the field of modulus 31 (well inside the overflow-free
range) the element 17 raised to -3 is 29 under both the bit-faithful and the
ideal pow; the effective exponent is -3 rem_euclid 30 = 27. -/
theorem pow_fermat_reduction_bounded_witness :
    (FieldElement.pow_wrap32 ⟨17, 31⟩ (-3) = FieldElement.pow ⟨17, 31⟩ (-3) ∧
     ∃ z, FieldElement.pow_wrap32 ⟨17, 31⟩ (-3) = some z ∧
       z.num = (17 : Int) ^ ((-3 : Int) % (31 - 1)).toNat % 31 ∧
       0 ≤ z.num ∧ z.num < z.prime ∧ z.prime = 31) ∧
    FieldElement.pow ⟨17, 31⟩ (-3) = some ⟨29, 31⟩ :=
  ⟨pow_fermat_reduction_bounded ⟨17, 31⟩ (-3) (by decide) (by decide) (by decide),
   by decide⟩

/-- C9: every FieldElement produced by the operations satisfies the
invariant 0 <= num < prime: new round-trips any in-range value, and add,
sub, mul and div (nonzero divisor) on compatible valid operands succeed and
return elements satisfying the invariant. -/
theorem field_element_ops_valid (x y : FieldElement) (hx : x.valid) (hy : y.valid)
    (hpr : x.prime = y.prime) (hy0 : y.num ≠ 0) :
    FieldElement.new x.num x.prime = some x ∧
    (∃ z, x.add y = some z ∧ z.valid) ∧
    (∃ z, x.sub y = some z ∧ z.valid) ∧
    (∃ z, x.mul y = some z ∧ z.valid) ∧
    (∃ z, x.div y = some z ∧ z.valid) := by
  obtain ⟨hx0, hx1⟩ := hx
  obtain ⟨hy0n, hy1⟩ := hy
  have hpos : 0 < x.prime := by omega
  refine ⟨?_, ?_, ?_, ?_, ?_⟩
  · rw [FieldElement.new_eq_some hx0 hx1]
  · exact ⟨_, FieldElement.add_eq x y hpr hpos,
      Int.emod_nonneg _ (by omega), Int.emod_lt_of_pos _ hpos⟩
  · exact ⟨_, FieldElement.sub_eq x y hpr hpos,
      Int.emod_nonneg _ (by omega), Int.emod_lt_of_pos _ hpos⟩
  · exact ⟨_, FieldElement.mul_eq x y hpr hpos,
      Int.emod_nonneg _ (by omega), Int.emod_lt_of_pos _ hpos⟩
  · have h1 : 1 < x.prime := by omega
    obtain ⟨z, hz, hzv, _⟩ := FieldElement.div_eq x y hpr h1 hy0n
    exact ⟨z, hz, hzv⟩

/-- C9 witness: the operations at 2 and 7 in the field of modulus 19 succeed
and return in-range residues. -/
theorem field_element_ops_valid_witness :
    FieldElement.new (2 : Int) 19 = some ⟨2, 19⟩ ∧
    (∃ z, FieldElement.add ⟨2, 19⟩ ⟨7, 19⟩ = some z ∧ z.valid) ∧
    (∃ z, FieldElement.sub ⟨2, 19⟩ ⟨7, 19⟩ = some z ∧ z.valid) ∧
    (∃ z, FieldElement.mul ⟨2, 19⟩ ⟨7, 19⟩ = some z ∧ z.valid) ∧
    (∃ z, FieldElement.div ⟨2, 19⟩ ⟨7, 19⟩ = some z ∧ z.valid) :=
  field_element_ops_valid ⟨2, 19⟩ ⟨7, 19⟩ (by decide) (by decide) rfl (by decide)

/-- C8: Point.new fails (the source panics) whenever exactly one coordinate
is the infinity marker; it returns the group identity when both coordinates
are infinity; and for two finite coordinates it succeeds exactly when the
curve-membership check y ^ 2 = x ^ 3 + a * x + b (with FieldElement
operations) evaluates to true, in which case the constructed point carries
the given coordinates and parameters; in particular (192, 105) over modulus
223 with a = 0, b = 7 is on the curve and succeeds. -/
theorem point_new_membership :
    (∀ a b fy : FieldElement, Point.new .Inf (.Num fy) a b = none) ∧
    (∀ a b fx : FieldElement, Point.new (.Num fx) .Inf a b = none) ∧
    (∀ a b : FieldElement, Point.new .Inf .Inf a b = some ⟨a, b, .Inf, .Inf⟩) ∧
    (∀ a b fx fy : FieldElement,
      Point.new (.Num fx) (.Num fy) a b = some ⟨a, b, .Num fx, .Num fy⟩ ↔
      ((fy.pow 2).bind fun lhs =>
        ((fx.pow 3).bind fun xcube =>
          (a.mul fx).bind fun ax =>
          (xcube.add ax).bind fun t => t.add b).bind fun rhs =>
        some (decide (lhs = rhs))) = some true) ∧
    Point.new (.Num ⟨192, 223⟩) (.Num ⟨105, 223⟩) ⟨0, 223⟩ ⟨7, 223⟩ =
      some ⟨⟨0, 223⟩, ⟨7, 223⟩, .Num ⟨192, 223⟩, .Num ⟨105, 223⟩⟩ := by
  refine ⟨fun a b fy => rfl, fun a b fx => rfl, fun a b => rfl, ?_, by decide⟩
  intro a b fx fy
  show ((fy.pow 2).bind fun lhs =>
      (fx.pow 3).bind fun xcube =>
      (a.mul fx).bind fun ax =>
      (xcube.add ax).bind fun t =>
      (t.add b).bind fun rhs =>
      some (decide (lhs = rhs))).bind (fun ok =>
        if ok then some (⟨a, b, .Num fx, .Num fy⟩ : Point) else none) =
      some ⟨a, b, .Num fx, .Num fy⟩ ↔ _
  cases h1 : fy.pow 2 with
  | none => simp [h1]
  | some lhs =>
    cases h2 : fx.pow 3 with
    | none => simp [h1, h2]
    | some xcube =>
      cases h3 : a.mul fx with
      | none => simp [h1, h2, h3]
      | some ax =>
        cases h4 : xcube.add ax with
        | none => simp [h1, h2, h3, h4]
        | some t =>
          cases h5 : t.add b with
          | none => simp [h1, h2, h3, h4, h5]
          | some rhs =>
            simp only [h1, h2, h3, h4, h5, Option.some_bind]
            by_cases he : lhs = rhs
            · simp [he]
            · simp [he]
